import Mathlib

/-!
Verification of the tree query and patch engine of the automation-client
repository, against its natural-language specification.

Strings of the TypeScript source are modelled as `List Char` (JS strings are
sequences of code units; offsets are code-unit indices, here list indices).
The stateful `FileHit` constructor of `MatchFuncs`/`FileHit` is modelled as an
explicit state record plus state-passing operations; the pure replacement
arithmetic of `doReplace` is modelled as pure functions on lists.
-/

namespace AutomationClient

/-- A pending edit as accumulated by the `FileHit` constructor: the `Update`
record `{ initialValue, currentValue, offset }` pushed by the `$value` setter
and by `append`/`prepend`. -/
structure Update where
  initialValue : List Char
  currentValue : List Char
  offset : Nat
deriving DecidableEq

/-- Position (if any) of the first occurrence of `pat` in `s`: the search that
JS `String.prototype.replace` performs for a plain-string pattern (the empty
pattern matches at position 0). -/
def indexOfPat (pat : List Char) : List Char → Option Nat
  | [] => if pat <+: ([] : List Char) then some 0 else none
  | c :: s =>
    if pat <+: (c :: s) then some 0
    else (indexOfPat pat s).map (· + 1)

/-- The dollar character, which starts a substitution escape in the
replacement string of JS `String.prototype.replace`. -/
def dollarChar : Char := '$'

/-- The ampersand character: a dollar followed by it inserts the matched
substring. -/
def ampChar : Char := '&'

/-- The backquote character (code 96): a dollar followed by it inserts the
portion of the searched string before the match. -/
def backquoteChar : Char := Char.ofNat 96

/-- The apostrophe character (code 39): a dollar followed by it inserts the
portion of the searched string after the match. -/
def quoteChar : Char := Char.ofNat 39

/-- ECMAScript `GetSubstitution` for a plain-string search (no capture
groups): expands the replacement string, interpreting a dollar followed by a
dollar as a literal dollar, by an ampersand as `matched`, by a backquote as
`before` (the searched string up to the match) and by an apostrophe as
`after` (the searched string past the match); a dollar followed by anything
else, or a trailing dollar, passes through literally. -/
def getSubstitution (matched before after : List Char) : List Char → List Char
  | [] => []
  | [c] => [c]
  | c :: d :: rest =>
    if c = dollarChar then
      if d = dollarChar then
        dollarChar :: getSubstitution matched before after rest
      else if d = ampChar then
        matched ++ getSubstitution matched before after rest
      else if d = backquoteChar then
        before ++ getSubstitution matched before after rest
      else if d = quoteChar then
        after ++ getSubstitution matched before after rest
      else c :: getSubstitution matched before after (d :: rest)
    else c :: getSubstitution matched before after (d :: rest)

/-- JS `String.prototype.replace` with a plain-string search pattern, as used
in `doReplace`: locate the first occurrence of `pat` (the empty pattern
matches at position 0); when there is none the string passes through
unchanged; otherwise the matched span is replaced by the `GetSubstitution`
expansion of `rep` (so dollar escapes in the replacement are interpreted, as
the ECMAScript algorithm prescribes). -/
def jsReplace (pat rep s : List Char) : List Char :=
  match indexOfPat pat s with
  | none => s
  | some j =>
    s.take j ++
      getSubstitution pat (s.take j) (s.drop (j + pat.length)) rep ++
      s.drop (j + pat.length)

/-- One iteration of the loop body of `FileHit.doReplace`:
`newContent.substr(0, u.offset) + newContent.substr(u.offset).replace(u.initialValue, u.currentValue)`
(JS `substr(0, n)` is `take n`, `substr(n)` is `drop n`, both clamped). -/
def applyUpdate (content : List Char) (u : Update) : List Char :=
  content.take u.offset ++
    jsReplace u.initialValue u.currentValue (content.drop u.offset)

/-- The comparator that `Array.prototype.sort` derives from the unary function
`u => -u.offset` passed in `doReplace`: `sort` always calls the supplied
function with two elements, so the second argument is ignored and the value is
`-u.offset` of the first element alone. -/
def updateComparator (u _v : Update) : Int := -(u.offset : Int)

/-- Insertion of `x` into an already-processed segment, scanning from the
right exactly as the insertion sort of `Array.prototype.sort` does: `x` ends
up after every element `y` with `c y x ≤ 0` that the scan meets. -/
def insertComp {α : Type} (c : α → α → Int) (x : α) : List α → List α
  | [] => [x]
  | y :: ys => if c y x > 0 then x :: y :: ys else y :: insertComp c x ys

/-- Comparator-driven stable insertion sort: the observable behaviour of
`Array.prototype.sort` (for the engine generation the source targets) on the
arrays arising here, parameterised by the two-argument comparator. -/
def sortComp {α : Type} (c : α → α → Int) (l : List α) : List α :=
  l.foldl (fun acc x => insertComp c x acc) []

/-- `FileHit.doReplace` as a pure function from the file content and the
accumulated updates to the new content: `updates.sort(u => -u.offset)`, then
the replacement step folded over the (sorted) updates. -/
def doReplace (content : List Char) (updates : List Update) : List Char :=
  (sortComp updateComparator updates).foldl applyUpdate content

/-- The `TreeNode` contract consumed by the engine: `$name`, `$value`,
`$offset` and ordered children (field names keep the source's names without
the `$` sigil, which Lean does not allow). -/
inductive TreeNode where
  | mk (name : List Char) (value : List Char) (offset : Nat)
       (children : List TreeNode)

/-- The `$name` of a tree node. -/
def TreeNode.name : TreeNode → List Char
  | .mk n _ _ _ => n

/-- The `$value` of a tree node. -/
def TreeNode.value : TreeNode → List Char
  | .mk _ v _ _ => v

/-- The `$offset` of a tree node. -/
def TreeNode.offset : TreeNode → Nat
  | .mk _ _ o _ => o

/-- The per-node state the `FileHit` constructor installs on a match:
`initialValue` is the `const` captured once at construction time, while
`currentValue` is the mutable closure variable behind the `$value` property. -/
structure NodeState where
  initialValue : List Char
  currentValue : List Char
  offset : Nat
deriving DecidableEq

/-- The state of one `FileHit`: the owning file's content (held by the
external file abstraction and only rewritten by the deferred `doReplace`),
the instrumented nodes, and the `updates` log. -/
structure FileHit where
  content : List Char
  nodes : List NodeState
  updates : List Update
deriving DecidableEq

/-- The `FileHit` constructor (the instrumentation `makeUpdatable` triggers):
each matched node's parsed value becomes both its captured `initialValue` and
its mutable `currentValue`, the update log starts empty, and the file content
is left untouched. -/
def mkFileHit (content : List Char) (nodes : List TreeNode) : FileHit :=
  { content := content
    nodes := nodes.map fun n => ⟨n.value, n.value, n.offset⟩
    updates := [] }

/-- The `$value` setter installed on match `i`: updates the closure variable
`currentValue` and pushes `{initialValue, currentValue, offset: m.$offset}`
onto the update log. The file content is not touched. -/
def FileHit.setValue (fh : FileHit) (i : Nat) (v : List Char) : FileHit :=
  match fh.nodes[i]? with
  | none => fh
  | some ns =>
    { fh with
      nodes := fh.nodes.set i { ns with currentValue := v }
      updates := fh.updates ++ [⟨ns.initialValue, v, ns.offset⟩] }

/-- `m.append(content)`: pushes
`{initialValue: "", currentValue: content, offset: m.$offset + currentValue.length}`.
Neither the node's value nor the file content changes. -/
def FileHit.append (fh : FileHit) (i : Nat) (s : List Char) : FileHit :=
  match fh.nodes[i]? with
  | none => fh
  | some ns =>
    { fh with
      updates := fh.updates ++ [⟨[], s, ns.offset + ns.currentValue.length⟩] }

/-- `m.prepend(content)`: pushes
`{initialValue: "", currentValue: content, offset: m.$offset}`. -/
def FileHit.prepend (fh : FileHit) (i : Nat) (s : List Char) : FileHit :=
  match fh.nodes[i]? with
  | none => fh
  | some ns =>
    { fh with updates := fh.updates ++ [⟨[], s, ns.offset⟩] }

/-- The `$value` getter installed on match `i`: returns the closure variable
`currentValue`. -/
def FileHit.getValue (fh : FileHit) (i : Nat) : Option (List Char) :=
  (fh.nodes[i]?).map fun ns => ns.currentValue

/-- The content `doReplace` hands to `file.setContent` when the deferred
action recorded by the constructor finally runs. -/
def FileHit.flushContent (fh : FileHit) : List Char :=
  doReplace fh.content fh.updates

/-- A mutation call against a match of an updatable group. -/
inductive EditOp where
  | setValue (i : Nat) (v : List Char)
  | append (i : Nat) (s : List Char)
  | prepend (i : Nat) (s : List Char)

/-- Dispatch of one mutation call. -/
def applyOp (fh : FileHit) : EditOp → FileHit
  | .setValue i v => fh.setValue i v
  | .append i s => fh.append i s
  | .prepend i s => fh.prepend i s

/-- A sequence of mutation calls, performed in order. -/
def applyOps (fh : FileHit) (ops : List EditOp) : FileHit :=
  ops.foldl applyOp fh

/-- `ValuePredicate`: holds the fixed string `$value`. -/
structure ValuePredicate where
  value : List Char

/-- `ValuePredicate.evaluate(nodeToTest, returnedNodes)`:
`nodeToTest.$value === this.$value`. -/
def ValuePredicate.evaluate (p : ValuePredicate) (nodeToTest : TreeNode)
    (returnedNodes : List TreeNode) : Bool :=
  nodeToTest.value == p.value

/-- Modelled from the spec: the `PathExpression` value object of the
`pathExpression` module, which is not among the given sources. The nested
predicate holds it and passes it back to the engine unexamined, so only its
identity matters here; it is kept as an ordered sequence of step labels. -/
structure PathExpression where
  steps : List (List Char)

/-- Modelled from the spec: the query engine's result type from the
`pathExpression` module (not among the given sources) — either a successful
ordered sequence of matched nodes or a typed failure. -/
inductive ExecutionResult where
  | success (nodes : List TreeNode)
  | failure (message : List Char)

/-- Modelled from the spec: `isSuccessResult` discriminates a successful node
sequence from a failure. -/
def isSuccessResult : ExecutionResult → Bool
  | .success _ => true
  | .failure _ => false

/-- Modelled from the spec: `r.length` of a result — the number of matched
nodes of a success (never consulted on a failure thanks to `&&`
short-circuiting; 0 here). -/
def resultLength : ExecutionResult → Nat
  | .success ns => ns.length
  | .failure _ => 0

/-- Modelled from the spec: the `ExpressionEngine` capability — evaluates a
path expression from a given root node. -/
def ExpressionEngine : Type :=
  TreeNode → PathExpression → ExecutionResult

/-- `NestedPathExpressionPredicate`: holds a path expression. -/
structure NestedPathExpressionPredicate where
  pathExpression : PathExpression

/-- `NestedPathExpressionPredicate.evaluate(nodeToTest, returnedNodes, ee)`:
`const r = ee(nodeToTest, this.pathExpression); return isSuccessResult(r) && r.length > 0`. -/
def NestedPathExpressionPredicate.evaluate (p : NestedPathExpressionPredicate)
    (nodeToTest : TreeNode) (returnedNodes : List TreeNode)
    (ee : ExpressionEngine) : Bool :=
  let r := ee nodeToTest p.pathExpression
  isSuccessResult r && decide (0 < resultLength r)

/-- `pat` occurs in `content` at position `j`. -/
def OccursAt (pat content : List Char) (j : Nat) : Prop :=
  pat <+: content.drop j

instance (pat content : List Char) (j : Nat) :
    Decidable (OccursAt pat content j) :=
  inferInstanceAs (Decidable (pat <+: content.drop j))

/-- Position (if any) of the first occurrence of `pat` in `content` at or
after position `o`. -/
def firstMatchFrom (pat content : List Char) (o : Nat) : Option Nat :=
  (indexOfPat pat (content.drop o)).map (· + o)

/-- Demonstration content for the flush-order analysis: characters 0–9 are a
matched node's value, character 10 is another matched node's value. -/
def c1Content : List Char := "0123456789XY".toList

/-- First recorded edit of the demonstration: the node at offset 0 (value
`"0123456789"`) is set to the empty string. -/
def c1ShrinkEdit : Update := ⟨"0123456789".toList, [], 0⟩

/-- Second recorded edit of the demonstration: the node at offset 10 (value
`"X"`) is set to `"Z"`. -/
def c1LateEdit : Update := ⟨"X".toList, "Z".toList, 10⟩

example : jsReplace "X".toList "YY".toList "aXbX".toList = "aYYbX".toList := by
  decide

example : firstMatchFrom "X".toList "abXcd".toList 1 = some 2 := by decide

example : doReplace "X".toList [⟨"X".toList, "XX".toList, 0⟩,
    ⟨"X".toList, "XX".toList, 0⟩] = "XXX".toList := by decide

/-- Node offsets are natural numbers, so the comparator built from
`u => -u.offset` never returns a positive value: insertion never moves the
inserted element forward. -/
theorem insertComp_updateComparator (x : Update) (l : List Update) :
    insertComp updateComparator x l = l ++ [x] := by
  induction l with
  | nil => rfl
  | cons y ys ih =>
    have h : ¬ updateComparator y x > 0 := by
      unfold updateComparator; omega
    unfold insertComp
    rw [if_neg h, ih]
    rfl

theorem sortComp_updateComparator_aux (l : List Update) :
    ∀ acc : List Update,
      l.foldl (fun a x => insertComp updateComparator x a) acc = acc ++ l := by
  induction l with
  | nil => intro acc; simp [List.foldl_nil]
  | cons x xs ih =>
    intro acc
    rw [List.foldl_cons, ih, insertComp_updateComparator]
    simp

/-- The sort call of `doReplace` is the identity on every update list: with a
unary key function in place of a two-argument comparator, no pair of updates
ever compares as out of order, so nothing is reordered. -/
theorem sortComp_updateComparator (l : List Update) :
    sortComp updateComparator l = l := by
  unfold sortComp
  rw [sortComp_updateComparator_aux]
  rfl

/-- `doReplace` therefore applies the updates in insertion order. -/
theorem doReplace_eq_foldl (content : List Char) (updates : List Update) :
    doReplace content updates = updates.foldl applyUpdate content := by
  unfold doReplace
  rw [sortComp_updateComparator]

/-- A replacement string without a dollar character is its own
`GetSubstitution` expansion: no escape can fire. -/
theorem getSubstitution_of_no_dollar (matched before after : List Char) :
    ∀ {rep : List Char}, dollarChar ∉ rep →
      getSubstitution matched before after rep = rep := by
  intro rep
  induction rep with
  | nil => intro hd; rfl
  | cons c rest ih =>
    intro hd
    rw [List.mem_cons] at hd
    push_neg at hd
    obtain ⟨h1, h2⟩ := hd
    cases rest with
    | nil => rfl
    | cons d rest2 =>
      unfold getSubstitution
      rw [if_neg (fun hc => h1 hc.symm), ih h2]

/-- When the pattern sits at the front of the string, the search returns
position 0. -/
theorem indexOfPat_of_head {pat s : List Char} (h : pat <+: s) :
    indexOfPat pat s = some 0 := by
  cases s with
  | nil =>
    unfold indexOfPat
    rw [if_pos h]
  | cons c s =>
    unfold indexOfPat
    rw [if_pos h]

/-- The empty pattern always matches at position 0. -/
theorem indexOfPat_nil_pat (s : List Char) :
    indexOfPat ([] : List Char) s = some 0 :=
  indexOfPat_of_head ⟨s, rfl⟩

/-- Soundness of the first-occurrence search: a returned position carries an
occurrence. -/
theorem indexOfPat_some_occurs {pat : List Char} :
    ∀ {s : List Char} {j : Nat}, indexOfPat pat s = some j → pat <+: s.drop j := by
  intro s
  induction s with
  | nil =>
    intro j h
    unfold indexOfPat at h
    split at h
    next hcond =>
      injection h with h0
      subst h0
      exact hcond
    next => exact Option.noConfusion h
  | cons c s ih =>
    intro j h
    unfold indexOfPat at h
    split at h
    next hcond =>
      injection h with h0
      subst h0
      exact hcond
    next hcond =>
      rcases Option.map_eq_some'.mp h with ⟨j', hj', rfl⟩
      rw [List.drop_succ_cons]
      exact ih hj'

/-- Minimality of the first-occurrence search: no occurrence sits strictly
before the returned position. -/
theorem indexOfPat_some_min {pat : List Char} :
    ∀ {s : List Char} {j : Nat}, indexOfPat pat s = some j →
      ∀ k, k < j → ¬ pat <+: s.drop k := by
  intro s
  induction s with
  | nil =>
    intro j h k hk
    unfold indexOfPat at h
    split at h
    next =>
      injection h with h0
      subst h0
      exact absurd hk (by omega)
    next => exact Option.noConfusion h
  | cons c s ih =>
    intro j h k hk
    unfold indexOfPat at h
    split at h
    next =>
      injection h with h0
      subst h0
      exact absurd hk (by omega)
    next hcond =>
      rcases Option.map_eq_some'.mp h with ⟨j', hj', rfl⟩
      cases k with
      | zero => exact hcond
      | succ k' =>
        rw [List.drop_succ_cons]
        exact ih hj' k' (by omega)

/-- Completeness of the first-occurrence search: a `none` answer means the
pattern occurs nowhere. -/
theorem indexOfPat_none_not_occurs {pat : List Char} :
    ∀ {s : List Char}, indexOfPat pat s = none → ∀ k, ¬ pat <+: s.drop k := by
  intro s
  induction s with
  | nil =>
    intro h k
    unfold indexOfPat at h
    split at h
    next => exact Option.noConfusion h
    next hcond =>
      rw [List.drop_nil]
      exact hcond
  | cons c s ih =>
    intro h k
    unfold indexOfPat at h
    split at h
    next => exact Option.noConfusion h
    next hcond =>
      have hnone : indexOfPat pat s = none := Option.map_eq_none'.mp h
      cases k with
      | zero => exact hcond
      | succ k' =>
        rw [List.drop_succ_cons]
        exact ih hnone k'

/-- For a dollar-free replacement, `jsReplace` splices the replacement in
literally at exactly the position the first-occurrence search returns. -/
theorem jsReplace_splice_no_dollar {pat rep s : List Char} {j : Nat}
    (h : indexOfPat pat s = some j) (hd : dollarChar ∉ rep) :
    jsReplace pat rep s = s.take j ++ rep ++ s.drop (j + pat.length) := by
  unfold jsReplace
  rw [h]
  show s.take j ++
      getSubstitution pat (s.take j) (s.drop (j + pat.length)) rep ++
      s.drop (j + pat.length) = _
  rw [getSubstitution_of_no_dollar _ _ _ hd]

/-- For a dollar-free replacement and a pattern sitting at the front of the
string, `jsReplace` substitutes the replacement there. -/
theorem jsReplace_head_no_dollar {pat rep s : List Char} (h : pat <+: s)
    (hd : dollarChar ∉ rep) : jsReplace pat rep s = rep ++ s.drop pat.length := by
  rw [jsReplace_splice_no_dollar (indexOfPat_of_head h) hd]
  simp

/-- `jsReplace` is the identity when the pattern does not occur. -/
theorem jsReplace_of_indexOfPat_none {pat rep s : List Char}
    (h : indexOfPat pat s = none) : jsReplace pat rep s = s := by
  unfold jsReplace
  rw [h]

/-- Dropping past an appended front segment. -/
theorem drop_append_length {α : Type} (l₁ l₂ : List α) (k : Nat) :
    (l₁ ++ l₂).drop (l₁.length + k) = l₂.drop k := by
  induction l₁ with
  | nil => simp
  | cons c l₁ ih =>
    have h : (c :: l₁).length + k = (l₁.length + k) + 1 := by
      rw [List.length_cons]; omega
    rw [h, List.cons_append, List.drop_succ_cons, ih]

/-- The `$value` setter never touches the file content. -/
theorem setValue_content (fh : FileHit) (i : Nat) (v : List Char) :
    (fh.setValue i v).content = fh.content := by
  unfold FileHit.setValue
  cases fh.nodes[i]? <;> rfl

/-- `append` never touches the file content. -/
theorem append_content (fh : FileHit) (i : Nat) (s : List Char) :
    (fh.append i s).content = fh.content := by
  unfold FileHit.append
  cases fh.nodes[i]? <;> rfl

/-- `prepend` never touches the file content. -/
theorem prepend_content (fh : FileHit) (i : Nat) (s : List Char) :
    (fh.prepend i s).content = fh.content := by
  unfold FileHit.prepend
  cases fh.nodes[i]? <;> rfl

theorem applyOp_content (fh : FileHit) (op : EditOp) :
    (applyOp fh op).content = fh.content := by
  cases op with
  | setValue i v => exact setValue_content fh i v
  | append i s => exact append_content fh i s
  | prepend i s => exact prepend_content fh i s

theorem setValue_nodes_length (fh : FileHit) (i : Nat) (v : List Char) :
    (fh.setValue i v).nodes.length = fh.nodes.length := by
  unfold FileHit.setValue
  cases fh.nodes[i]? with
  | none => rfl
  | some ns => simp [List.length_set]

theorem append_nodes_length (fh : FileHit) (i : Nat) (s : List Char) :
    (fh.append i s).nodes.length = fh.nodes.length := by
  unfold FileHit.append
  cases fh.nodes[i]? <;> rfl

theorem prepend_nodes_length (fh : FileHit) (i : Nat) (s : List Char) :
    (fh.prepend i s).nodes.length = fh.nodes.length := by
  unfold FileHit.prepend
  cases fh.nodes[i]? <;> rfl

theorem applyOp_nodes_length (fh : FileHit) (op : EditOp) :
    (applyOp fh op).nodes.length = fh.nodes.length := by
  cases op with
  | setValue i v => exact setValue_nodes_length fh i v
  | append i s => exact append_nodes_length fh i s
  | prepend i s => exact prepend_nodes_length fh i s

theorem applyOps_cons (fh : FileHit) (op : EditOp) (ops : List EditOp) :
    applyOps fh (op :: ops) = applyOps (applyOp fh op) ops := rfl

/-- No sequence of mutation calls changes the file content. -/
theorem applyOps_content (fh : FileHit) (ops : List EditOp) :
    (applyOps fh ops).content = fh.content := by
  induction ops generalizing fh with
  | nil => rfl
  | cons op ops ih =>
    rw [applyOps_cons, ih, applyOp_content]

theorem applyOps_nodes_length (fh : FileHit) (ops : List EditOp) :
    (applyOps fh ops).nodes.length = fh.nodes.length := by
  induction ops generalizing fh with
  | nil => rfl
  | cons op ops ih =>
    rw [applyOps_cons, ih, applyOp_nodes_length]

/-- Reading a node's value right after setting it returns the value just set. -/
theorem getValue_setValue (fh : FileHit) (i : Nat) (v : List Char)
    (h : i < fh.nodes.length) :
    (fh.setValue i v).getValue i = some v := by
  have hg : fh.nodes[i]? = some fh.nodes[i] := List.getElem?_eq_getElem h
  unfold FileHit.setValue FileHit.getValue
  rw [hg]
  simp [List.getElem?_set_self, h]

/-- C1: the claim asserts that at flush time the pending edits are applied in
descending offset order, an edit with a larger offset always before one with a
smaller offset. The code does not do this: `updates.sort(u => -u.offset)`
hands `Array.prototype.sort` a one-argument key function where a two-argument
comparator is expected; node offsets being non-negative, the resulting
comparator never returns a positive value, so the sort leaves every update
list in insertion order (first conjunct). On the demonstration input the
recorded order is ascending (second conjunct), the flush applies the offset-0
edit first and produces `"XY"` with the offset-10 edit silently lost (third
conjunct), while the descending-order application required by the claim — and
by the code's own comment `Replace in reverse order so that offsets work` —
produces `"ZY"` (fourth conjunct). -/
theorem C1_flush_order_code_bug :
    (∀ us : List Update, sortComp updateComparator us = us) ∧
    c1ShrinkEdit.offset < c1LateEdit.offset ∧
    doReplace c1Content [c1ShrinkEdit, c1LateEdit] = "XY".toList ∧
    applyUpdate (applyUpdate c1Content c1LateEdit) c1ShrinkEdit = "ZY".toList :=
  ⟨sortComp_updateComparator, by decide, by decide, by decide⟩

/-- C3: making a match group updatable (the `FileHit` constructor run by
`makeUpdatable`) and then flushing without any set-value, append, or prepend
call writes back content identical to the original file content. -/
theorem C3_roundtrip_no_edits (content : List Char) (nodes : List TreeNode) :
    (mkFileHit content nodes).flushContent = content := rfl

/-- C7: `ValuePredicate.evaluate` returns true iff the candidate node's
`$value` equals the predicate's fixed string, for every candidate node and
every accepted-so-far set. -/
theorem C7_value_predicate_iff (p : ValuePredicate) (nodeToTest : TreeNode)
    (returnedNodes : List TreeNode) :
    p.evaluate nodeToTest returnedNodes = true ↔ nodeToTest.value = p.value := by
  unfold ValuePredicate.evaluate
  exact beq_iff_eq

/-- C8: `NestedPathExpressionPredicate.evaluate` returns true iff re-invoking
the engine with the candidate node as root on the held path expression yields
a success containing at least one node; a failure result or an empty success
both yield false. -/
theorem C8_nested_predicate_iff (p : NestedPathExpressionPredicate)
    (nodeToTest : TreeNode) (returnedNodes : List TreeNode)
    (ee : ExpressionEngine) :
    p.evaluate nodeToTest returnedNodes ee = true ↔
      ∃ found, ee nodeToTest p.pathExpression = ExecutionResult.success found ∧
        0 < found.length := by
  unfold NestedPathExpressionPredicate.evaluate
  cases h : ee nodeToTest p.pathExpression with
  | success ns => simp [isSuccessResult, resultLength]
  | failure msg => simp [isSuccessResult, resultLength]

/-- C2 (amended): for a pending edit whose replacement contains no dollar
character — JS replace interprets dollar escapes in the replacement, see the
counterexample — one flush step keeps the first `offset` characters of the
in-progress content unchanged (first conjunct), and replaces exactly the
first occurrence of `original` at or after position `offset` with
`replacement`, leaving all other text intact (second conjunct: the result is
the content with the span of that first occurrence — position minimal at or
after `offset` — replaced by `replacement`); when `original` has no occurrence
at or after `offset` the content passes through unchanged (third conjunct). -/
theorem C2_one_flush_step (content : List Char) (u : Update)
    (hnd : dollarChar ∉ u.currentValue) :
    content.take u.offset <+: applyUpdate content u ∧
    (∀ j, firstMatchFrom u.initialValue content u.offset = some j →
      u.offset ≤ j ∧ OccursAt u.initialValue content j ∧
      (∀ k, u.offset ≤ k → k < j → ¬ OccursAt u.initialValue content k) ∧
      applyUpdate content u =
        content.take j ++ u.currentValue ++
          content.drop (j + u.initialValue.length)) ∧
    (firstMatchFrom u.initialValue content u.offset = none →
      (∀ k, u.offset ≤ k → ¬ OccursAt u.initialValue content k) ∧
      applyUpdate content u = content) := by
  obtain ⟨pat, rep, o⟩ := u
  dsimp only
  refine ⟨⟨jsReplace pat rep (content.drop o), rfl⟩, ?_, ?_⟩
  · intro j hj
    unfold firstMatchFrom at hj
    rcases Option.map_eq_some'.mp hj with ⟨j', hj', rfl⟩
    refine ⟨Nat.le_add_left o j', ?_, ?_, ?_⟩
    · show pat <+: content.drop (j' + o)
      have hd : content.drop (j' + o) = (content.drop o).drop j' := by
        rw [List.drop_drop]
        congr 1
        omega
      rw [hd]
      exact indexOfPat_some_occurs hj'
    · intro k hk1 hk2 hcon
      have hlt : k - o < j' := by omega
      apply indexOfPat_some_min hj' (k - o) hlt
      have hd : (content.drop o).drop (k - o) = content.drop k := by
        rw [List.drop_drop]
        congr 1
        omega
      rw [hd]
      exact hcon
    · show content.take o ++ jsReplace pat rep (content.drop o) = _
      rw [jsReplace_splice_no_dollar hj' hnd]
      have hT : content.take (j' + o) =
          content.take o ++ (content.drop o).take j' := by
        rw [Nat.add_comm j' o, List.take_add]
      have hD : content.drop (j' + o + pat.length) =
          (content.drop o).drop (j' + pat.length) := by
        rw [List.drop_drop]
        congr 1
        omega
      rw [hT, hD]
      simp [List.append_assoc]
  · intro hnone
    unfold firstMatchFrom at hnone
    have hidx : indexOfPat pat (content.drop o) = none :=
      Option.map_eq_none'.mp hnone
    constructor
    · intro k hk hcon
      apply indexOfPat_none_not_occurs hidx (k - o)
      have hd : (content.drop o).drop (k - o) = content.drop k := by
        rw [List.drop_drop]
        congr 1
        omega
      rw [hd]
      exact hcon
    · show content.take o ++ jsReplace pat rep (content.drop o) = content
      rw [jsReplace_of_indexOfPat_none hidx, List.take_append_drop]

/-- Witness for C2 at a concrete input: content `"abXcd"`, edit
`{original: "X", replacement: "YY", offset: 1}`; the first occurrence at or
after 1 is at position 2 and the step yields `"abYYcd"`. -/
theorem C2_one_flush_step_witness :
    (1 : Nat) ≤ 2 ∧ OccursAt "X".toList "abXcd".toList 2 ∧
    (∀ k, (1 : Nat) ≤ k → k < 2 → ¬ OccursAt "X".toList "abXcd".toList k) ∧
    applyUpdate "abXcd".toList ⟨"X".toList, "YY".toList, 1⟩ =
      "abXcd".toList.take 2 ++ "YY".toList ++
        "abXcd".toList.drop (2 + "X".toList.length) :=
  (C2_one_flush_step "abXcd".toList ⟨"X".toList, "YY".toList, 1⟩
    (by decide)).2.1 2 (by decide)

/-- C2 counterexample: the claim as stated quantifies over every pending
edit, but for the edit `{original: "X", replacement: "$$", offset: 0}` on
content `"X"` the program's replace expands the dollar escape and produces
`"$"`, not the content with the first occurrence replaced by the literal
replacement `"$$"`. -/
theorem C2_counterexample :
    firstMatchFrom "X".toList "X".toList 0 = some 0 ∧
    applyUpdate "X".toList ⟨"X".toList, "$$".toList, 0⟩ = "$".toList ∧
    applyUpdate "X".toList ⟨"X".toList, "$$".toList, 0⟩ ≠
      "X".toList.take 0 ++ "$$".toList ++
        "X".toList.drop (0 + "X".toList.length) :=
  ⟨by decide, by decide, by decide⟩

/-- The empty pattern (`initialValue: ""` as recorded by append/prepend)
matches at position 0, so for a dollar-free replacement `jsReplace` prepends
the replacement. -/
theorem jsReplace_nil_pat {rep : List Char} (s : List Char)
    (hd : dollarChar ∉ rep) : jsReplace [] rep s = rep ++ s := by
  rw [jsReplace_splice_no_dollar (indexOfPat_nil_pat s) hd]
  simp

/-- C10 (amended): a flush step for a pending edit whose original substring
is empty — the shape produced by append and prepend — and whose replacement
contains no dollar character (JS replace interprets dollar escapes in the
replacement, see the counterexample) inserts the replacement exactly at the
recorded offset (within bounds by hypothesis): the result is the prefix
before the offset, then the replacement, then the rest of the content, so
every character of the prior content stays present, in order, exactly once. -/
theorem C10_empty_original_inserts (content : List Char) (u : Update)
    (he : u.initialValue = []) (hnd : dollarChar ∉ u.currentValue)
    (hl : u.offset ≤ content.length) :
    applyUpdate content u =
      content.take u.offset ++ u.currentValue ++ content.drop u.offset ∧
    (applyUpdate content u).take u.offset = content.take u.offset ∧
    ((applyUpdate content u).drop u.offset).take u.currentValue.length =
      u.currentValue ∧
    (applyUpdate content u).drop (u.offset + u.currentValue.length) =
      content.drop u.offset := by
  have htl : (content.take u.offset).length = u.offset := by
    rw [List.length_take]
    exact min_eq_left hl
  have h1 : applyUpdate content u =
      content.take u.offset ++ u.currentValue ++ content.drop u.offset := by
    unfold applyUpdate
    rw [he, jsReplace_nil_pat (content.drop u.offset) hnd, ← List.append_assoc]
  refine ⟨h1, ?_, ?_, ?_⟩
  · rw [h1, List.append_assoc, List.take_left' htl]
  · rw [h1, List.append_assoc, List.drop_left' htl, List.take_left]
  · rw [h1]
    have hlen : (content.take u.offset ++ u.currentValue).length =
        u.offset + u.currentValue.length := by
      rw [List.length_append, htl]
    rw [List.drop_left' hlen]

/-- Witness for C10 at a concrete input: inserting `"XY"` at offset 2 of
`"abcd"`. -/
theorem C10_empty_original_inserts_witness :
    applyUpdate "abcd".toList ⟨[], "XY".toList, 2⟩ =
      "abcd".toList.take 2 ++ "XY".toList ++ "abcd".toList.drop 2 ∧
    (applyUpdate "abcd".toList ⟨[], "XY".toList, 2⟩).take 2 =
      "abcd".toList.take 2 ∧
    ((applyUpdate "abcd".toList ⟨[], "XY".toList, 2⟩).drop 2).take
        "XY".toList.length = "XY".toList ∧
    (applyUpdate "abcd".toList ⟨[], "XY".toList, 2⟩).drop
        (2 + "XY".toList.length) = "abcd".toList.drop 2 :=
  C10_empty_original_inserts "abcd".toList ⟨[], "XY".toList, 2⟩ (by decide)
    (by decide) (by decide)

/-- C10 counterexample: the claim as stated quantifies over every
empty-original pending edit, but for the edit with original `""`, replacement
dollar-then-apostrophe, and offset 0 on content `"ab"`, the program's replace
expands the escape to the text after the (empty) match: the result is
`"abab"` — the tail is duplicated and the literal replacement is never
inserted at the offset. -/
theorem C10_counterexample :
    applyUpdate "ab".toList ⟨[], [dollarChar, quoteChar], 0⟩ =
      "abab".toList ∧
    applyUpdate "ab".toList ⟨[], [dollarChar, quoteChar], 0⟩ ≠
      "ab".toList.take 0 ++ [dollarChar, quoteChar] ++ "ab".toList.drop 0 :=
  ⟨by decide, by decide⟩

/-- C5 (amended): offset-safety. For a file whose content carries a matched
node of value `v1` (5 characters) at offset 10 and a second matched node
whose value is the 5-character span at offset 30, setting the first node's
value to a 20-character string `nv` containing no dollar character (JS
replace interprets dollar escapes in the replacement, see the counterexample)
and flushing yields the content with only the span 10–14 rewritten (first
conjunct), so the second node's text is unmodified and sits at its shifted
position 30 + 15 = 45 (second conjunct). -/
theorem C5_offset_safety (content v1 nv : List Char)
    (h1 : v1.length = 5) (h2 : nv.length = 20)
    (hnd : dollarChar ∉ nv) (hp : v1 <+: content.drop 10) :
    ((mkFileHit content
        [TreeNode.mk [] v1 10 [],
         TreeNode.mk [] ((content.drop 30).take 5) 30 []]).setValue 0
          nv).flushContent =
      content.take 10 ++ nv ++ content.drop 15 ∧
    (((((mkFileHit content
        [TreeNode.mk [] v1 10 [],
         TreeNode.mk [] ((content.drop 30).take 5) 30 []]).setValue 0
          nv).flushContent).drop 45).take 5) =
      (content.drop 30).take 5 := by
  have hflush : ((mkFileHit content
      [TreeNode.mk [] v1 10 [],
       TreeNode.mk [] ((content.drop 30).take 5) 30 []]).setValue 0
        nv).flushContent = applyUpdate content ⟨v1, nv, 10⟩ := by
    simp [mkFileHit, FileHit.setValue, FileHit.flushContent, doReplace_eq_foldl,
      TreeNode.value, TreeNode.offset]
  have happ : applyUpdate content ⟨v1, nv, 10⟩ =
      content.take 10 ++ nv ++ content.drop 15 := by
    unfold applyUpdate
    dsimp only
    rw [jsReplace_head_no_dollar hp hnd, List.drop_drop]
    have h15 : 10 + v1.length = 15 := by omega
    rw [h15, ← List.append_assoc]
  have hc : 15 ≤ content.length := by
    have hle := hp.length_le
    rw [List.length_drop] at hle
    omega
  have htk : (content.take 10).length = 10 := by
    rw [List.length_take]
    exact min_eq_left (by omega)
  have hL : (content.take 10 ++ nv).length = 30 := by
    rw [List.length_append, htk, h2]
  have hdrop : ((content.take 10 ++ nv) ++ content.drop 15).drop 45 =
      content.drop 30 := by
    have h45 : (45 : Nat) = (content.take 10 ++ nv).length + 15 := by
      rw [hL]
    rw [h45, drop_append_length, List.drop_drop]
  constructor
  · rw [hflush]
    exact happ
  · rw [hflush, happ, List.append_assoc, ← List.append_assoc, hdrop]

/-- Witness for C5 at a concrete input: a 37-character content with
`"ABCDE"` at offset 10 and `"VWXYZ"` at offset 30; the first node is set to
twenty `"Q"`s. -/
theorem C5_offset_safety_witness :
    ((mkFileHit "0123456789ABCDEfghijklmnopqrstVWXYZ!?".toList
        [TreeNode.mk [] "ABCDE".toList 10 [],
         TreeNode.mk []
           (("0123456789ABCDEfghijklmnopqrstVWXYZ!?".toList.drop 30).take 5)
           30 []]).setValue 0 "QQQQQQQQQQQQQQQQQQQQ".toList).flushContent =
      "0123456789ABCDEfghijklmnopqrstVWXYZ!?".toList.take 10 ++
        "QQQQQQQQQQQQQQQQQQQQ".toList ++
        "0123456789ABCDEfghijklmnopqrstVWXYZ!?".toList.drop 15 ∧
    (((((mkFileHit "0123456789ABCDEfghijklmnopqrstVWXYZ!?".toList
        [TreeNode.mk [] "ABCDE".toList 10 [],
         TreeNode.mk []
           (("0123456789ABCDEfghijklmnopqrstVWXYZ!?".toList.drop 30).take 5)
           30 []]).setValue 0
          "QQQQQQQQQQQQQQQQQQQQ".toList).flushContent).drop 45).take 5) =
      ("0123456789ABCDEfghijklmnopqrstVWXYZ!?".toList.drop 30).take 5 :=
  C5_offset_safety "0123456789ABCDEfghijklmnopqrstVWXYZ!?".toList
    "ABCDE".toList "QQQQQQQQQQQQQQQQQQQQ".toList (by decide) (by decide)
    (by decide) (by decide)

/-- C5 counterexample: the claim as stated quantifies over every 20-character
new value, but setting the node at offset 10 to ten copies of
dollar-ampersand (20 characters) makes the program's replace expand each
escape to the matched text `"ABCDE"`: the flushed content is not the original
with the span 10–14 replaced by the literal new value, and the second node's
text `"VWXYZ"` is not at position 45. -/
theorem C5_counterexample :
    ((mkFileHit "0123456789ABCDEfghijklmnopqrstVWXYZ!?".toList
        [TreeNode.mk [] "ABCDE".toList 10 [],
         TreeNode.mk []
           (("0123456789ABCDEfghijklmnopqrstVWXYZ!?".toList.drop 30).take 5)
           30 []]).setValue 0 "$&$&$&$&$&$&$&$&$&$&".toList).flushContent ≠
      "0123456789ABCDEfghijklmnopqrstVWXYZ!?".toList.take 10 ++
        "$&$&$&$&$&$&$&$&$&$&".toList ++
        "0123456789ABCDEfghijklmnopqrstVWXYZ!?".toList.drop 15 ∧
    (((((mkFileHit "0123456789ABCDEfghijklmnopqrstVWXYZ!?".toList
        [TreeNode.mk [] "ABCDE".toList 10 [],
         TreeNode.mk []
           (("0123456789ABCDEfghijklmnopqrstVWXYZ!?".toList.drop 30).take 5)
           30 []]).setValue 0
          "$&$&$&$&$&$&$&$&$&$&".toList).flushContent).drop 45).take 5) ≠
      ("0123456789ABCDEfghijklmnopqrstVWXYZ!?".toList.drop 30).take 5 :=
  ⟨by decide, by decide⟩

/-- C4 counterexample: the claim asserts unconditional idempotence of
set-value, but for content `"X"` with a matched node of value `"X"` at offset
0, setting the node to `"XX"` twice and flushing yields `"XXX"`, while setting
once yields `"XX"`: the second recorded edit's search finds the `"X"` the
first replacement just wrote and replaces it again. -/
theorem C4_counterexample :
    ¬ ((((mkFileHit "X".toList [TreeNode.mk [] "X".toList 0 []]).setValue 0
          "XX".toList).setValue 0 "XX".toList).flushContent =
        ((mkFileHit "X".toList [TreeNode.mk [] "X".toList 0 []]).setValue 0
          "XX".toList).flushContent) := by
  decide

/-- C4 (amended): setting a matched node's value to `v` twice before flush
yields the same flushed content as setting it once, provided the node's
original value no longer occurs at or after the node's offset in the
once-flushed content (so the duplicate edit's search finds nothing). -/
theorem C4_set_twice_amended (content v : List Char) (n : TreeNode)
    (h : firstMatchFrom n.value
        (applyUpdate content ⟨n.value, v, n.offset⟩) n.offset = none) :
    (((mkFileHit content [n]).setValue 0 v).setValue 0 v).flushContent =
      ((mkFileHit content [n]).setValue 0 v).flushContent := by
  have hidx : indexOfPat n.value
      ((applyUpdate content ⟨n.value, v, n.offset⟩).drop n.offset) = none := by
    unfold firstMatchFrom at h
    exact Option.map_eq_none'.mp h
  have e1 : (((mkFileHit content [n]).setValue 0 v).setValue 0 v).flushContent =
      applyUpdate (applyUpdate content ⟨n.value, v, n.offset⟩)
        ⟨n.value, v, n.offset⟩ := by
    simp [mkFileHit, FileHit.setValue, FileHit.flushContent, doReplace_eq_foldl]
  have e2 : ((mkFileHit content [n]).setValue 0 v).flushContent =
      applyUpdate content ⟨n.value, v, n.offset⟩ := by
    simp [mkFileHit, FileHit.setValue, FileHit.flushContent, doReplace_eq_foldl]
  rw [e1, e2]
  show (applyUpdate content ⟨n.value, v, n.offset⟩).take n.offset ++
      jsReplace n.value v
        ((applyUpdate content ⟨n.value, v, n.offset⟩).drop n.offset) =
    applyUpdate content ⟨n.value, v, n.offset⟩
  rw [jsReplace_of_indexOfPat_none hidx, List.take_append_drop]

/-- Witness for C4 (amended) at a concrete input: content `"aXb"`, node value
`"X"` at offset 1, set twice to `"Y"`; the once-flushed content `"aYb"` holds
no further `"X"` at or after offset 1. -/
theorem C4_set_twice_amended_witness :
    firstMatchFrom "X".toList
        (applyUpdate "aXb".toList ⟨"X".toList, "Y".toList, 1⟩) 1 = none ∧
    (((mkFileHit "aXb".toList [TreeNode.mk [] "X".toList 1 []]).setValue 0
        "Y".toList).setValue 0 "Y".toList).flushContent =
      ((mkFileHit "aXb".toList [TreeNode.mk [] "X".toList 1 []]).setValue 0
        "Y".toList).flushContent :=
  ⟨by decide,
    C4_set_twice_amended "aXb".toList "Y".toList
      (TreeNode.mk [] "X".toList 1 []) (by decide)⟩

/-- C6: for every sequence of set-value, append, and prepend calls against an
updatable match group, the underlying file's content is unchanged until the
deferred flush runs (first conjunct), while reading a node's value right
after a set returns the newly set value (second conjunct). -/
theorem C6_no_mutation_before_flush (fh : FileHit) (ops : List EditOp)
    (i : Nat) (v : List Char) (h : i < fh.nodes.length) :
    (applyOps fh ops).content = fh.content ∧
    ((applyOps fh ops).setValue i v).getValue i = some v := by
  refine ⟨applyOps_content fh ops, ?_⟩
  apply getValue_setValue
  rw [applyOps_nodes_length]
  exact h

/-- Witness for C6 at a concrete input: a one-node hit over `"abc"`, a
set-value followed by an append, then a final set read back. -/
theorem C6_no_mutation_before_flush_witness :
    (applyOps ⟨"abc".toList, [⟨"b".toList, "b".toList, 1⟩], []⟩
        [EditOp.setValue 0 "ZZ".toList, EditOp.append 0 "w".toList]).content =
      (⟨"abc".toList, [⟨"b".toList, "b".toList, 1⟩], []⟩ : FileHit).content ∧
    ((applyOps ⟨"abc".toList, [⟨"b".toList, "b".toList, 1⟩], []⟩
        [EditOp.setValue 0 "ZZ".toList, EditOp.append 0 "w".toList]).setValue 0
          "Q".toList).getValue 0 = some "Q".toList :=
  C6_no_mutation_before_flush
    ⟨"abc".toList, [⟨"b".toList, "b".toList, 1⟩], []⟩
    [EditOp.setValue 0 "ZZ".toList, EditOp.append 0 "w".toList] 0 "Q".toList
    (by decide)

/-- C9: for a matched node, an append call records a pending edit with empty
original substring at the node's offset plus the length of the node's current
value, and a prepend call records a pending edit with empty original
substring at the node's offset. -/
theorem C9_append_prepend_record (fh : FileHit) (i : Nat) (s : List Char)
    (ns : NodeState) (h : fh.nodes[i]? = some ns) :
    (fh.append i s).updates =
      fh.updates ++ [⟨[], s, ns.offset + ns.currentValue.length⟩] ∧
    (fh.prepend i s).updates = fh.updates ++ [⟨[], s, ns.offset⟩] := by
  constructor
  · unfold FileHit.append
    rw [h]
  · unfold FileHit.prepend
    rw [h]

/-- Witness for C9 at a concrete input: a node at offset 0 whose current
value is `"aa"` (two characters), appending and prepending `"z"`. -/
theorem C9_append_prepend_record_witness :
    ((⟨"ab".toList, [⟨"a".toList, "aa".toList, 0⟩], []⟩ : FileHit).append 0
        "z".toList).updates =
      ([] : List Update) ++ [⟨[], "z".toList, 0 + "aa".toList.length⟩] ∧
    ((⟨"ab".toList, [⟨"a".toList, "aa".toList, 0⟩], []⟩ : FileHit).prepend 0
        "z".toList).updates = ([] : List Update) ++ [⟨[], "z".toList, 0⟩] :=
  C9_append_prepend_record ⟨"ab".toList, [⟨"a".toList, "aa".toList, 0⟩], []⟩ 0
    "z".toList ⟨"a".toList, "aa".toList, 0⟩ (by decide)

end AutomationClient
